import Mathlib

/-!
Verification of the `interceptor` package (an HTTP request/response
interception pipeline) against its natural-language specification.

The Go source (`interceptor.go`) is shallowly embedded here:

* `Pipeline`, `Pipeline.roundTrip`, `Pipeline.use` model the pipeline type
  and its two methods.  A transport (`http.RoundTripper`) is modelled as a
  function from a request and an explicit effect state `σ` to an `Outcome`;
  the state threads the side effects (shared logs, mutation) that Go
  performs implicitly, and `Outcome.panic` models a Go runtime panic
  (in particular the nil-function call that occurs when a `nil` interceptor
  is applied while the chain is being built).
* `BaseURL` and `Header` model the two interceptor factories.  They rely on
  the Go standard library's `url.URL.JoinPath`, `url.URL.ResolveReference`
  (with its helpers `path.Clean`, `path.Join`, `resolvePath`) and
  `http.Header.Set` / `textproto.CanonicalMIMEHeaderKey`; those library
  functions are embedded faithfully below at the path-segment level.
  Percent-escaping is elided: paths are modelled as their unescaped text,
  so `EscapedPath()`/`setPath` are the identity on the path component,
  which is exact for the escape-free paths all the claims are about.

Strings are processed through their underlying `List Char`, and a path is
split into the list of its `/`-separated segments, exactly as the Go code
does via `strings.Split`/`strings.Cut`.
-/

/-- The `url.URL` record, restricted to the fields the interceptor code
reads or writes: scheme, opaque part, user info, host, path, raw query,
force-query flag and fragment. -/
structure URL where
  scheme : String := ""
  /-- The URL's `Opaque` component. -/
  opq : String := ""
  user : Option String := none
  host : String := ""
  path : String := ""
  rawQuery : String := ""
  forceQuery : Bool := false
  fragment : String := ""
deriving DecidableEq

/-- An `http.Request`, restricted to the fields the interceptor code
touches: method, URL, and the header map (modelled as an association list
from canonical header names to value lists, mirroring `http.Header`). -/
structure Request where
  method : String := "GET"
  url : URL := {}
  header : List (String × List String) := []
deriving DecidableEq

/-- An `http.Response`, restricted to the observable fields. -/
structure Response where
  statusCode : Nat := 200
  header : List (String × List String) := []
  body : String := ""
deriving DecidableEq

/-- A Go `error` value (opaque; only identity matters to the pipeline). -/
structure GoError where
  msg : String
deriving DecidableEq

/-- The outcome of a `RoundTrip` call: either a Go runtime panic, or the
pair `(*http.Response, error)` that Go returns, together with the final
effect state. -/
inductive Outcome (σ : Type) where
  | panic
  | ok (resp : Option Response) (err : Option GoError) (state : σ)
deriving DecidableEq

/-- An `http.RoundTripper`: "given a request, produce a response or fail".
The state parameter `σ` threads whatever side effects the transport
performs (for example a shared log). -/
def RoundTripper (σ : Type) : Type := Request → σ → Outcome σ

/-- An `Interceptor`: a function wrapping one `http.RoundTripper` in
another (`type Interceptor func(http.RoundTripper) http.RoundTripper`). -/
def Interceptor (σ : Type) : Type := RoundTripper σ → RoundTripper σ

/-- The `Pipeline` struct: an ordered interceptor sequence plus an optional
terminal transport.  An entry of the sequence is `Option`al because a Go
`Interceptor` is a function value that may be `nil`. -/
structure Pipeline (σ : Type) where
  interceptors : List (Option (Interceptor σ))
  transport : Option (RoundTripper σ)

/-- The chain-building loop of `Pipeline.RoundTrip`:
`for i := len(t.interceptors) - 1; i >= 0; i-- { transport = t.interceptors[i](transport) }`.
Wrapping starts from the last-registered interceptor, so the
first-registered one ends up outermost.  Applying a `nil` interceptor is a
nil-function call, i.e. a panic, modelled by `none`. -/
def buildChain {σ : Type} : List (Option (Interceptor σ)) → RoundTripper σ → Option (RoundTripper σ)
  | [], transport => some transport
  | oic :: rest, transport =>
    match buildChain rest transport with
    | none => none
    | some inner =>
      match oic with
      | none => none
      | some ic => some (ic inner)

/-- `Pipeline.RoundTrip`: resolve the terminal transport (the configured
one, or `http.DefaultTransport` — an external collaborator passed here as
`defaultTransport`), fold the interceptors over it in reverse registration
order, and dispatch the request through the outermost wrapper. -/
def Pipeline.roundTrip {σ : Type} (p : Pipeline σ) (defaultTransport : RoundTripper σ)
    (req : Request) (s : σ) : Outcome σ :=
  let transport := match p.transport with
    | none => defaultTransport
    | some t => t
  match buildChain p.interceptors transport with
  | none => Outcome.panic
  | some chained => chained req s

/-- `Pipeline.Use`: `t.interceptors = append(t.interceptors, interceptors...)`. -/
def Pipeline.use {σ : Type} (p : Pipeline σ) (ics : List (Option (Interceptor σ))) : Pipeline σ :=
  { p with interceptors := p.interceptors ++ ics }

/-- A `Pipeline` is itself an `http.RoundTripper` (this is what allows
nesting one pipeline as the terminal transport of another). -/
def Pipeline.asTransport {σ : Type} (p : Pipeline σ) (defaultTransport : RoundTripper σ) :
    RoundTripper σ :=
  fun req s => p.roundTrip defaultTransport req s

/-! ## Path-segment machinery

Models of the Go standard-library path functions used by `BaseURL`:
`strings.Split(s, "/")`, `strings.Join`, `path.Clean`, `path.Join`,
`url.URL.JoinPath`, `net/url`'s `resolvePath`, and
`url.URL.ResolveReference`. -/

/-- `strings.Split(s, "/")` on the character list of `s`: the list of
`/`-separated segments (empty segments included). -/
def segs : List Char → List (List Char)
  | [] => [[]]
  | c :: cs =>
    if c = '/' then [] :: segs cs
    else
      match segs cs with
      | s :: rest => (c :: s) :: rest
      | [] => [[c]]

/-- `strings.Join(l, "/")`: interleave the segments with `/`. -/
def joinSegs : List (List Char) → List Char
  | [] => []
  | [s] => s
  | s :: s2 :: rest => s ++ '/' :: joinSegs (s2 :: rest)

/-- The element loop of `path.Clean`, processed over segments with the
pending output kept as a stack (most recent element first; the final
result is the reversal).  Empty and `.` segments are dropped; `..` pops
the previous element, except that in a rooted path `..` at the root is
discarded, and in a relative path leading `..` elements are kept. -/
def cleanLoop (rooted : Bool) (stack : List (List Char)) : List (List Char) → List (List Char)
  | [] => stack.reverse
  | s :: rest =>
    if s = [] ∨ s = ['.'] then cleanLoop rooted stack rest
    else if s = ['.', '.'] then
      match stack with
      | t :: stack2 =>
        if t = ['.', '.'] then cleanLoop rooted (s :: t :: stack2) rest
        else cleanLoop rooted stack2 rest
      | [] => if rooted then cleanLoop rooted [] rest else cleanLoop rooted [s] rest
    else cleanLoop rooted (s :: stack) rest

/-- `path.Clean` on a character list: lexical cleaning of a path —
collapse multiple slashes, eliminate `.` and inner `..` elements, clamp
`..` at the root of a rooted path, and return `.` for an empty result. -/
def pathCleanL (cs : List Char) : List Char :=
  match cs with
  | [] => ['.']
  | c :: rest =>
    if c = '/' then '/' :: joinSegs (cleanLoop true [] (segs rest))
    else
      let out := joinSegs (cleanLoop false [] (segs (c :: rest)))
      if out = [] then ['.'] else out

/-- `path.Clean` on a string. -/
def pathClean (s : String) : String := ⟨pathCleanL s.data⟩

/-- `path.Join(a, b)` (the two-element case used by `URL.JoinPath`):
skip leading empty elements, join with `/`, then `path.Clean`; the join of
two empty strings is empty. -/
def pathJoinL (a b : List Char) : List Char :=
  if a = [] ∧ b = [] then []
  else if a = [] then pathCleanL b
  else pathCleanL (a ++ '/' :: b)

/-- `url.URL.JoinPath(elem)` with a single element, as called by `BaseURL`
(only the resulting path matters).  A relative base is temporarily rooted
so that cleaning clamps `..` rather than leaving `../` elements, and the
leading slash is stripped again afterwards; a trailing slash on the last
element is preserved. -/
def URL.joinPath (u : URL) (elem : String) : URL :=
  let base := u.path.data
  let p : List Char :=
    if base.head? = some '/' then pathJoinL base elem.data
    else (pathJoinL ('/' :: base) elem.data).drop 1
  let p2 : List Char :=
    if elem.data.getLast? = some '/' ∧ ¬ p.getLast? = some '/' then p ++ ['/'] else p
  { u with path := ⟨p2⟩ }

/-- `base[:strings.LastIndex(base, "/")+1]`: the prefix of `base` up to and
including its last slash (empty when `base` has no slash). -/
def upToLastSlash (cs : List Char) : List Char :=
  (cs.reverse.dropWhile (fun c => ¬ c = '/')).reverse

/-- The segment loop of `net/url`'s `resolvePath`: `.` is dropped, `..`
pops the last output element (if any), every other segment (empty ones
included) is appended. -/
def resolveDst (dst : List (List Char)) : List (List Char) → List (List Char)
  | [] => dst
  | s :: rest =>
    if s = ['.'] then resolveDst dst rest
    else if s = ['.', '.'] then resolveDst dst.dropLast rest
    else resolveDst (dst ++ [s]) rest

/-- `strings.TrimPrefix(s, "/")`. -/
def trimOneSlash (cs : List Char) : List Char :=
  if cs.head? = some '/' then cs.drop 1 else cs

/-- The dot-segment-removal phase of `net/url`'s `resolvePath`, applied to
the merged path `full`: split on `/`, process with `resolveDst`, keep a
trailing slash after a trailing `.` or `..` segment, and root the
result. -/
def resolveFullL (full : List Char) : List Char :=
  if full = [] then []
  else
    let src := segs full
    let dst := resolveDst [] src
    let dst :=
      if src.getLast? = some ['.'] ∨ src.getLast? = some ['.', '.'] then dst ++ [[]] else dst
    '/' :: trimOneSlash (joinSegs dst)

/-- `net/url`'s `resolvePath(base, ref)`: RFC 3986 merge of a reference
path with a base path followed by dot-segment removal; the result is
always rooted, and a trailing `.` or `..` segment leaves a trailing
slash. -/
def resolvePathL (base ref : List Char) : List Char :=
  resolveFullL
    (if ref = [] then base
     else if ¬ ref.head? = some '/' then upToLastSlash base ++ ref
     else ref)

/-- `url.URL.ResolveReference(ref)` called on base URL `u`, restricted to
the modelled fields (`RawPath`/`RawFragment` bookkeeping elided). -/
def URL.resolveReference (u ref : URL) : URL :=
  let url := ref
  let url := if ref.scheme = "" then { url with scheme := u.scheme } else url
  if ¬ ref.scheme = "" ∨ ¬ ref.host = "" ∨ ¬ ref.user = none then
    { url with path := ⟨resolvePathL ref.path.data []⟩ }
  else if ¬ ref.opq = "" then
    { url with user := none, host := "", path := "" }
  else
    let url :=
      if ref.path = "" ∧ ref.forceQuery = false ∧ ref.rawQuery = "" then
        let url := { url with rawQuery := u.rawQuery }
        if ref.fragment = "" then { url with fragment := u.fragment } else url
      else url
    { url with host := u.host, user := u.user,
               path := ⟨resolvePathL u.path.data ref.path.data⟩ }

/-! ## The BaseURL and Header interceptor factories -/

/-- The `BaseURL(baseURL)` interceptor: if the request URL already has a
scheme, pass the request to the next transport unchanged; otherwise set
the request path to the base-joined path and replace the whole request URL
by resolving the (mutated) request URL against the base URL. -/
def BaseURL {σ : Type} (baseURL : URL) : Interceptor σ :=
  fun next req s =>
    if ¬ req.url.scheme = "" then next req s
    else
      let u1 := { req.url with path := (baseURL.joinPath req.url.path).path }
      next { req with url := baseURL.resolveReference u1 } s

/-- A byte valid in a MIME header field name (`net/textproto`'s
`validHeaderFieldByte`): an RFC 7230 token character. -/
def isTokenChar (c : Char) : Bool :=
  let n := c.toNat
  decide ((48 ≤ n ∧ n ≤ 57) ∨ (65 ≤ n ∧ n ≤ 90) ∨ (97 ≤ n ∧ n ≤ 122) ∨
    n = 33 ∨ n = 35 ∨ n = 36 ∨ n = 37 ∨ n = 38 ∨ n = 39 ∨ n = 42 ∨ n = 43 ∨
    n = 45 ∨ n = 46 ∨ n = 94 ∨ n = 95 ∨ n = 96 ∨ n = 124 ∨ n = 126)

/-- The casing loop of `textproto.canonicalMIMEHeaderKey`: uppercase a
letter at the start or after a hyphen, lowercase every other letter. -/
def canonLoop (upper : Bool) : List Char → List Char
  | [] => []
  | c :: cs =>
    let n := c.toNat
    let c2 := if upper ∧ 97 ≤ n ∧ n ≤ 122 then Char.ofNat (n - 32)
      else if ¬ upper ∧ 65 ≤ n ∧ n ≤ 90 then Char.ofNat (n + 32)
      else c
    c2 :: canonLoop (c2 = '-') cs

/-- `textproto.CanonicalMIMEHeaderKey`: canonicalize the casing of a
header key, or return it unchanged if it contains a non-token byte. -/
def canonicalKey (s : String) : String :=
  if s.data.all isTokenChar then ⟨canonLoop true s.data⟩ else s

/-- `http.Header.Set(key, value)`, i.e.
`textproto.MIMEHeader.Set`: `h[CanonicalMIMEHeaderKey(key)] = []string{value}` —
replace the entry for the canonical key, or add one. -/
def headerSet (h : List (String × List String)) (key value : String) :
    List (String × List String) :=
  let ck := canonicalKey key
  if h.any (fun e => e.1 = ck) then
    h.map (fun e => if e.1 = ck then (ck, [value]) else e)
  else h ++ [(ck, [value])]

/-- `http.Header.Get(key)`: the first value stored under the canonical
key, or `""`. -/
def headerGet (h : List (String × List String)) (key : String) : String :=
  match h.find? (fun e => e.1 = canonicalKey key) with
  | some (_, v :: _) => v
  | _ => ""

/-- The `Header(key, value)` interceptor: set the header if the key is
non-empty, then delegate. -/
def Header {σ : Type} (key value : String) : Interceptor σ :=
  fun next req s =>
    if ¬ key = "" then next { req with header := headerSet req.header key value } s
    else next req s

/-- The pure request transformation performed by a `BaseURL` interceptor
before it delegates. -/
def baseURLTransform (baseURL : URL) (req : Request) : Request :=
  if ¬ req.url.scheme = "" then req
  else
    { req with
      url := baseURL.resolveReference
        { req.url with path := (baseURL.joinPath req.url.path).path } }

/-- The pure request transformation performed by a `Header` interceptor
before it delegates. -/
def headerTransform (key value : String) (req : Request) : Request :=
  if ¬ key = "" then { req with header := headerSet req.header key value } else req

/-- A built-in interceptor of the package: `BaseURL(b)` or
`Header(k, v)`. -/
inductive Builtin where
  | baseURL (b : URL)
  | header (k v : String)

/-- The interceptor denoted by a built-in description. -/
def Builtin.toInterceptor {σ : Type} : Builtin → Interceptor σ
  | .baseURL b => BaseURL b
  | .header k v => Header k v

/-- The request transformation a built-in interceptor applies before
delegating. -/
def Builtin.transform : Builtin → Request → Request
  | .baseURL b, req => baseURLTransform b req
  | .header k v, req => headerTransform k v req

/-! ## Marker interceptors (the spec's onion-ordering observers)

An interceptor that appends `name ++ "-pre"` to a shared log before
delegating and `name ++ "-post"` after, and a terminal transport that logs
`"terminal"`; the state `σ` is the shared log. -/

/-- An interceptor recording a marker before and after delegating (a Go
panic unwinds, so nothing is recorded after one). -/
def markerInterceptor (name : String) : Interceptor (List String) :=
  fun next req log =>
    match next req (log ++ [name ++ "-pre"]) with
    | .panic => .panic
    | .ok resp err log2 => .ok resp err (log2 ++ [name ++ "-post"])

/-- A terminal transport recording `"terminal"` and returning a fixed
result. -/
def markerTerminal (resp : Option Response) (err : Option GoError) :
    RoundTripper (List String) :=
  fun _ log => .ok resp err (log ++ ["terminal"])

/-! ## Spec-side path joining

Modelled from the spec: "split both paths into segments, concatenate base
segments with request segments, then collapse `.` and `..` segments as a
stack — popping one prior segment per `..`, discarding leading `..` beyond
the root rather than erroring". -/

/-- Modelled from the spec: the (non-empty) segments of a path. -/
def specSegments (p : String) : List (List Char) :=
  (segs p.data).filter (fun s => ¬ s = [])

/-- Modelled from the spec: collapse `.` and `..` segments as a stack,
popping one prior segment per `..` and discarding `..` at the root (the
stack is kept most-recent-first and reversed at the end). -/
def specCollapse (stack : List (List Char)) : List (List Char) → List (List Char)
  | [] => stack.reverse
  | s :: rest =>
    if s = ['.'] then specCollapse stack rest
    else if s = ['.', '.'] then specCollapse (stack.drop 1) rest
    else specCollapse (s :: stack) rest

/-- Modelled from the spec: the collapsed segment list of the joined
path. -/
def specJoinSegs (basePath reqPath : String) : List (List Char) :=
  specCollapse [] (specSegments basePath ++ specSegments reqPath)

/-- Modelled from the spec: the normalized joined path — root slash
followed by the collapsed segments. -/
def specJoinPath (basePath reqPath : String) : String :=
  ⟨'/' :: joinSegs (specJoinSegs basePath reqPath)⟩

/-- The trailing-slash preservation of `URL.JoinPath` at the segment
level: append an empty final segment when the joined element ended in a
slash and the collapsed segment list is non-empty (when it is empty the
joined path is just `/`, which already ends in a slash). -/
def withTrailingSlash (elemData : List Char) (L : List (List Char)) : List (List Char) :=
  if elemData.getLast? = some '/' ∧ ¬ L = [] then L ++ [[]] else L

/-! ## Concrete sample values used by witnesses and counterexamples -/

/-- The base URL of the repository's test table:
`http://base.example.com/am`. -/
def amBase : URL := { scheme := "http", host := "base.example.com", path := "/am" }

/-- A request for a bare path (what `http.NewRequest(method, path, nil)`
produces for a scheme-less target). -/
def mkPathReq (p : String) : Request := { url := { path := p } }

/-- The request for `https://google.com` (absolute URL, bypass case). -/
def googleReq : Request :=
  { url := { scheme := "https", host := "google.com" } }

/-- The request for `/oauth2/json?param1=value1&param2=value2#fragment`. -/
def oauthJsonReq : Request :=
  { url := { path := "/oauth2/json", rawQuery := "param1=value1&param2=value2",
             fragment := "fragment" } }

/-- A protocol-relative request target `//other.example.com/x`: empty
scheme but non-empty host. -/
def protoRelReq : Request :=
  { url := { host := "other.example.com", path := "/x" } }

/-- A base URL whose path is relative (`a/b`) rather than absolute. -/
def relBase : URL := { scheme := "http", host := "h", path := "a/b" }

/-- A base URL with an empty path that itself carries a query and a
fragment. -/
def queryBase : URL :=
  { scheme := "http", host := "h", rawQuery := "x=1", fragment := "bf" }

/-- The empty request (empty scheme, host, path, query and fragment). -/
def emptyReq : Request := {}

/-- A sample response. -/
def sampleResp : Response := { statusCode := 200, body := "OK" }

/-- A terminal transport that succeeds with `sampleResp` and no error. -/
def okTransport : RoundTripper Unit := fun _ s => Outcome.ok (some sampleResp) none s

/-- A terminal transport (over request-valued state) that records the
request it was invoked with in the state. -/
def captureRT : RoundTripper Request := fun req _ => Outcome.ok none none req

/-! ## Segment lemmas -/

theorem segs_ne_nil (cs : List Char) : ¬ segs cs = [] := by
  cases cs with
  | nil => simp [segs]
  | cons c cs =>
    by_cases h : c = '/'
    · simp [segs, h]
    · cases hseg : segs cs with
      | nil => simp [segs, h, hseg]
      | cons s rest => simp [segs, h, hseg]

theorem segs_append (a b : List Char) : segs (a ++ '/' :: b) = segs a ++ segs b := by
  induction a with
  | nil => simp [segs]
  | cons c cs ih =>
    by_cases h : c = '/'
    · simp [segs, h, ih]
    · cases hseg : segs cs with
      | nil => exact absurd hseg (segs_ne_nil cs)
      | cons s rest =>
        have h2 : segs (cs ++ '/' :: b) = s :: (rest ++ segs b) := by
          rw [ih, hseg]; rfl
        simp only [List.cons_append, segs, if_neg h, List.append_eq, h2, hseg]

theorem no_slash_of_mem_segs (cs : List Char) : ∀ s ∈ segs cs, ¬ '/' ∈ s := by
  induction cs with
  | nil => intro s hs; simp [segs] at hs; simp [hs]
  | cons c cs ih =>
    intro s hs
    by_cases h : c = '/'
    · simp only [segs, if_pos h, List.mem_cons] at hs
      rcases hs with h1 | h1
      · simp [h1]
      · exact ih s h1
    · cases hseg : segs cs with
      | nil => exact absurd hseg (segs_ne_nil cs)
      | cons t rest =>
        simp only [segs, if_neg h, hseg, List.mem_cons] at hs
        rcases hs with h1 | h1
        · subst h1
          intro hmem
          rcases List.mem_cons.mp hmem with h2 | h2
          · exact h h2.symm
          · exact ih t (by simp [hseg]) h2
        · exact ih s (by simp [hseg, h1])

theorem segs_of_no_slash (s : List Char) (h : ¬ '/' ∈ s) : segs s = [s] := by
  induction s with
  | nil => simp [segs]
  | cons c cs ih =>
    have hc : ¬ c = '/' := fun he => h (by simp [he])
    have hcs : segs cs = [cs] := ih (fun hm => h (by simp [hm]))
    simp [segs, hc, hcs]

theorem joinSegs_cons_cons (s t : List Char) (L : List (List Char)) :
    joinSegs (s :: t :: L) = s ++ '/' :: joinSegs (t :: L) := rfl

theorem segs_joinSegs (L : List (List Char)) (h0 : ¬ L = [])
    (h1 : ∀ s ∈ L, ¬ '/' ∈ s) : segs (joinSegs L) = L := by
  induction L with
  | nil => exact absurd rfl h0
  | cons s L ih =>
    cases L with
    | nil => exact segs_of_no_slash s (h1 s (by simp))
    | cons t L2 =>
      rw [joinSegs_cons_cons, segs_append, segs_of_no_slash s (h1 s (by simp)),
        ih (by simp) (fun u hu => h1 u (List.mem_cons_of_mem s hu))]
      rfl

theorem joinSegs_cons_ne_nil (s : List Char) (L : List (List Char)) (hs : ¬ s = []) :
    ¬ joinSegs (s :: L) = [] := by
  cases L with
  | nil => simpa [joinSegs]
  | cons t L2 => simp [joinSegs_cons_cons, hs]

theorem joinSegs_append_single (L : List (List Char)) (t : List Char) (h : ¬ L = []) :
    joinSegs (L ++ [t]) = joinSegs L ++ '/' :: t := by
  induction L with
  | nil => exact absurd rfl h
  | cons s L ih =>
    cases L with
    | nil => simp [joinSegs, joinSegs_cons_cons]
    | cons u L2 =>
      calc joinSegs ((s :: u :: L2) ++ [t])
          = s ++ '/' :: joinSegs ((u :: L2) ++ [t]) := rfl
        _ = s ++ '/' :: (joinSegs (u :: L2) ++ '/' :: t) := by rw [ih (by simp)]
        _ = joinSegs (s :: u :: L2) ++ '/' :: t := by
            simp [joinSegs_cons_cons, List.append_assoc]

/-! ## cleanLoop, specCollapse and resolveDst lemmas -/

theorem cleanLoop_rooted_spec (l : List (List Char)) : ∀ stack : List (List Char),
    ¬ ['.', '.'] ∈ stack →
    cleanLoop true stack l = specCollapse stack (l.filter (fun s => ¬ s = [])) := by
  induction l with
  | nil => intro stack _; rfl
  | cons s rest ih =>
    intro stack h
    by_cases h0 : s = []
    · subst h0
      simp only [cleanLoop, List.filter_cons]
      simp [ih stack h]
    · by_cases h1 : s = ['.']
      · subst h1
        simp only [cleanLoop, List.filter_cons]
        simp [specCollapse, ih stack h]
      · by_cases h2 : s = ['.', '.']
        · subst h2
          cases stack with
          | nil =>
            simp only [cleanLoop, List.filter_cons]
            simp [specCollapse, h0, h1, ih [] (by simp)]
          | cons t st2 =>
            have ht : ¬ t = ['.', '.'] := fun he => h (he ▸ List.mem_cons_self t st2)
            have hst2 : ¬ ['.', '.'] ∈ st2 := fun hm => h (List.mem_cons_of_mem t hm)
            simp only [cleanLoop, List.filter_cons]
            simp [specCollapse, h0, h1, ht, ih st2 hst2]
        · have hpush : ¬ ['.', '.'] ∈ s :: stack := by
            intro hm
            rcases List.mem_cons.mp hm with he | hm2
            · exact h2 he.symm
            · exact h hm2
          simp only [cleanLoop, List.filter_cons]
          simp [specCollapse, h0, h1, h2, ih (s :: stack) hpush]

theorem specCollapse_mem (l : List (List Char)) : ∀ stack : List (List Char),
    (∀ s ∈ stack, ¬ s = [] ∧ ¬ '/' ∈ s ∧ ¬ s = ['.'] ∧ ¬ s = ['.', '.']) →
    (∀ s ∈ l, ¬ s = [] ∧ ¬ '/' ∈ s) →
    ∀ s ∈ specCollapse stack l, ¬ s = [] ∧ ¬ '/' ∈ s ∧ ¬ s = ['.'] ∧ ¬ s = ['.', '.'] := by
  induction l with
  | nil =>
    intro stack hstack _ s hs
    exact hstack s (by simpa [specCollapse] using hs)
  | cons t rest ih =>
    intro stack hstack hl
    by_cases h1 : t = ['.']
    · subst h1
      simp only [specCollapse, if_pos rfl]
      exact ih stack hstack (fun s hs => hl s (List.mem_cons_of_mem _ hs))
    · by_cases h2 : t = ['.', '.']
      · subst h2
        simp only [specCollapse, if_neg h1, if_pos rfl]
        refine ih (stack.drop 1) ?_ (fun s hs => hl s (List.mem_cons_of_mem _ hs))
        intro s hs
        exact hstack s (List.drop_subset 1 stack hs)
      · simp only [specCollapse, if_neg h1, if_neg h2]
        refine ih (t :: stack) ?_ (fun s hs => hl s (List.mem_cons_of_mem _ hs))
        intro s hs
        rcases List.mem_cons.mp hs with he | hm
        · have := hl t (List.mem_cons_self t rest)
          rw [he]
          exact ⟨this.1, this.2, h1, h2⟩
        · exact hstack s hm

theorem specSegments_mem (p : String) : ∀ s ∈ specSegments p, ¬ s = [] ∧ ¬ '/' ∈ s := by
  intro s hs
  simp only [specSegments, List.mem_filter, decide_not, Bool.not_eq_eq_eq_not,
    Bool.not_true, decide_eq_false_iff_not] at hs
  exact ⟨hs.2, no_slash_of_mem_segs p.data s hs.1⟩

theorem specJoinSegs_mem (basePath reqPath : String) :
    ∀ s ∈ specJoinSegs basePath reqPath,
      ¬ s = [] ∧ ¬ '/' ∈ s ∧ ¬ s = ['.'] ∧ ¬ s = ['.', '.'] := by
  refine specCollapse_mem _ [] (by simp) ?_
  intro s hs
  rcases List.mem_append.mp hs with h | h
  · exact specSegments_mem basePath s h
  · exact specSegments_mem reqPath s h

theorem resolveDst_no_dots (l : List (List Char)) : ∀ dst : List (List Char),
    (∀ s ∈ l, ¬ s = ['.'] ∧ ¬ s = ['.', '.']) → resolveDst dst l = dst ++ l := by
  induction l with
  | nil => intro dst _; simp [resolveDst]
  | cons s rest ih =>
    intro dst hl
    have hs := hl s (List.mem_cons_self s rest)
    simp only [resolveDst, if_neg hs.1, if_neg hs.2]
    rw [ih (dst ++ [s]) (fun t ht => hl t (List.mem_cons_of_mem _ ht))]
    simp

theorem getLast_joinSegs_ne_slash (L : List (List Char)) (h0 : ¬ L = [])
    (h1 : ∀ s ∈ L, ¬ s = [] ∧ ¬ '/' ∈ s) : ¬ (joinSegs L).getLast? = some '/' := by
  induction L with
  | nil => exact absurd rfl h0
  | cons s L ih =>
    cases L with
    | nil =>
      intro hc
      have hs := h1 s (List.mem_cons_self s [])
      have hc2 : s.getLast? = some '/' := by simpa [joinSegs] using hc
      rcases List.mem_getLast?_eq_getLast (Option.mem_def.mpr hc2) with ⟨hne, heq⟩
      exact hs.2 (heq ▸ List.getLast_mem hne)
    | cons t L2 =>
      have hjoin : ¬ joinSegs (t :: L2) = [] :=
        joinSegs_cons_ne_nil t L2 (h1 t (by simp)).1
      rw [joinSegs_cons_cons, List.getLast?_append_cons,
        show ('/' :: joinSegs (t :: L2)) = ['/'] ++ joinSegs (t :: L2) from rfl,
        List.getLast?_append_of_ne_nil ['/'] hjoin]
      exact ih (by simp) (fun u hu => h1 u (List.mem_cons_of_mem s hu))

theorem segs_slash_cons (x : List Char) : segs ('/' :: x) = [] :: segs x := by
  simp [segs]

theorem trimOneSlash_slash_cons (x : List Char) : trimOneSlash ('/' :: x) = x := by
  simp [trimOneSlash]

theorem resolveFull_clean (L : List (List Char))
    (hL : ∀ s ∈ L, ¬ s = ['.'] ∧ ¬ s = ['.', '.'] ∧ ¬ '/' ∈ s) :
    resolveFullL ('/' :: joinSegs L) = '/' :: joinSegs L := by
  cases L with
  | nil => rfl
  | cons s L2 =>
    have hsegs : segs (joinSegs (s :: L2)) = s :: L2 :=
      segs_joinSegs _ (by simp) (fun t ht => (hL t ht).2.2)
    have hsrc : segs ('/' :: joinSegs (s :: L2)) = [] :: s :: L2 := by
      rw [segs_slash_cons, hsegs]
    have hdst : resolveDst [] ([] :: s :: L2) = [] :: s :: L2 := by
      rw [resolveDst_no_dots ([] :: s :: L2) [] ?_]
      · rfl
      · intro t ht
        rcases List.mem_cons.mp ht with he | hm
        · constructor <;> simp [he]
        · exact ⟨(hL t hm).1, (hL t hm).2.1⟩
    have hne : ¬ (s :: L2) = ([] : List (List Char)) := by simp
    have hlastmem : (s :: L2).getLast (by simp) ∈ s :: L2 := List.getLast_mem _
    have hlast := hL _ hlastmem
    have hcond : ¬ (([] :: s :: L2).getLast? = some ['.'] ∨
        ([] :: s :: L2).getLast? = some ['.', '.']) := by
      rw [List.getLast?_cons_cons, List.getLast?_eq_getLast_of_ne_nil (by simp)]
      simp only [Option.some.injEq]
      push_neg
      exact ⟨hlast.1, hlast.2.1⟩
    unfold resolveFullL
    rw [if_neg (by simp : ¬ ('/' :: joinSegs (s :: L2)) = [])]
    simp only [hsrc, hdst, if_neg hcond]
    rw [show joinSegs ([] :: s :: L2) = [] ++ '/' :: joinSegs (s :: L2) from rfl,
      List.nil_append, trimOneSlash_slash_cons]

theorem resolvePath_ref_clean (base : List Char) (L : List (List Char))
    (hL : ∀ s ∈ L, ¬ s = ['.'] ∧ ¬ s = ['.', '.'] ∧ ¬ '/' ∈ s) :
    resolvePathL base ('/' :: joinSegs L) = '/' :: joinSegs L := by
  unfold resolvePathL
  rw [if_neg (by simp : ¬ ('/' :: joinSegs L) = []),
    if_neg (by simp : ¬ ¬ ('/' :: joinSegs L).head? = some '/')]
  exact resolveFull_clean L hL

theorem resolvePath_base_clean (L : List (List Char))
    (hL : ∀ s ∈ L, ¬ s = ['.'] ∧ ¬ s = ['.', '.'] ∧ ¬ '/' ∈ s) :
    resolvePathL ('/' :: joinSegs L) [] = '/' :: joinSegs L := by
  unfold resolvePathL
  rw [if_pos rfl]
  exact resolveFull_clean L hL

theorem joinPath_rooted (u : URL) (elem : String) (bp : List Char)
    (hb : u.path.data = '/' :: bp) :
    (u.joinPath elem).path.data
      = '/' :: joinSegs (withTrailingSlash elem.data (specJoinSegs u.path elem)) := by
  have hspecb : specSegments u.path = (segs bp).filter (fun s => ¬ s = []) := by
    rw [specSegments, hb, segs_slash_cons, List.filter_cons]
    simp
  have hJ : cleanLoop true [] (segs (bp ++ '/' :: elem.data)) = specJoinSegs u.path elem := by
    rw [segs_append, cleanLoop_rooted_spec (segs bp ++ segs elem.data) [] (by simp),
      List.filter_append, ← hspecb]
    rfl
  have hp : pathJoinL u.path.data elem.data = '/' :: joinSegs (specJoinSegs u.path elem) := by
    rw [hb]
    rw [pathJoinL, if_neg (by simp), if_neg (by simp)]
    rw [show (('/' :: bp) ++ '/' :: elem.data) = '/' :: (bp ++ '/' :: elem.data) from rfl]
    simp only [pathCleanL, eq_self_iff_true, if_true]
    rw [hJ]
  have hhead : u.path.data.head? = some '/' := by rw [hb]; rfl
  unfold URL.joinPath
  simp only [hhead, eq_self_iff_true, if_true, hp]
  by_cases hJnil : specJoinSegs u.path elem = []
  · have hcond : ¬ (elem.data.getLast? = some '/' ∧
        ¬ ('/' :: joinSegs (specJoinSegs u.path elem)).getLast? = some '/') := by
      rw [hJnil]; simp [joinSegs]
    rw [if_neg hcond]
    have hWt : withTrailingSlash elem.data (specJoinSegs u.path elem)
        = specJoinSegs u.path elem := by
      unfold withTrailingSlash
      rw [if_neg (by rw [hJnil]; simp)]
    rw [hWt]
  · obtain ⟨j0, J2, hJc⟩ : ∃ j0 J2, specJoinSegs u.path elem = j0 :: J2 := by
      cases hJx : specJoinSegs u.path elem with
      | nil => exact absurd hJx hJnil
      | cons a b => exact ⟨a, b, rfl⟩
    have hmem := specJoinSegs_mem u.path elem
    have hjoin_ne : ¬ joinSegs (specJoinSegs u.path elem) = [] := by
      rw [hJc]
      exact joinSegs_cons_ne_nil j0 J2 (hmem j0 (by simp [hJc])).1
    have hlast : ¬ ('/' :: joinSegs (specJoinSegs u.path elem)).getLast? = some '/' := by
      rw [show ('/' :: joinSegs (specJoinSegs u.path elem))
          = ['/'] ++ joinSegs (specJoinSegs u.path elem) from rfl,
        List.getLast?_append_of_ne_nil ['/'] hjoin_ne]
      exact getLast_joinSegs_ne_slash _ hJnil
        (fun s hsm => ⟨(hmem s hsm).1, (hmem s hsm).2.1⟩)
    by_cases he : elem.data.getLast? = some '/'
    · have hcondp : elem.data.getLast? = some '/' ∧
          ¬ ('/' :: joinSegs (specJoinSegs u.path elem)).getLast? = some '/' := ⟨he, hlast⟩
      rw [if_pos hcondp]
      have hWt : withTrailingSlash elem.data (specJoinSegs u.path elem)
          = specJoinSegs u.path elem ++ [[]] := by
        unfold withTrailingSlash
        exact if_pos ⟨he, hJnil⟩
      rw [hWt, joinSegs_append_single _ _ hJnil]
      simp
    · have hcondn : ¬ (elem.data.getLast? = some '/' ∧
          ¬ ('/' :: joinSegs (specJoinSegs u.path elem)).getLast? = some '/') :=
        fun hx => he hx.1
      rw [if_neg hcondn]
      have hWt : withTrailingSlash elem.data (specJoinSegs u.path elem)
          = specJoinSegs u.path elem := by
        unfold withTrailingSlash
        exact if_neg (fun hx => he hx.1)
      rw [hWt]

theorem withTrailingSlash_mem (elemData : List Char) (basePath reqPath : String) :
    ∀ s ∈ withTrailingSlash elemData (specJoinSegs basePath reqPath),
      ¬ s = ['.'] ∧ ¬ s = ['.', '.'] ∧ ¬ '/' ∈ s := by
  intro s hsm
  unfold withTrailingSlash at hsm
  by_cases hc : elemData.getLast? = some '/' ∧ ¬ specJoinSegs basePath reqPath = []
  · rw [if_pos hc] at hsm
    rcases List.mem_append.mp hsm with hm | hm
    · have h4 := specJoinSegs_mem basePath reqPath s hm
      exact ⟨h4.2.2.1, h4.2.2.2, h4.2.1⟩
    · have hse : s = [] := by simpa using hm
      rw [hse]
      refine ⟨by simp, by simp, by simp⟩
  · rw [if_neg hc] at hsm
    have h4 := specJoinSegs_mem basePath reqPath s hsm
    exact ⟨h4.2.2.1, h4.2.2.2, h4.2.1⟩

theorem baseURLTransform_path (b : URL) (req : Request) (bp : List Char)
    (hb : b.path.data = '/' :: bp) (hs : req.url.scheme = "") (ho : req.url.opq = "") :
    (baseURLTransform b req).url.path.data
      = '/' :: joinSegs (withTrailingSlash req.url.path.data
          (specJoinSegs b.path req.url.path)) := by
  have hW := withTrailingSlash_mem req.url.path.data b.path req.url.path
  have href : (b.joinPath req.url.path).path.data
      = '/' :: joinSegs (withTrailingSlash req.url.path.data
          (specJoinSegs b.path req.url.path)) :=
    joinPath_rooted b req.url.path bp hb
  unfold baseURLTransform
  rw [if_neg (by simp [hs])]
  unfold URL.resolveReference
  simp only [hs, ho, eq_self_iff_true, if_true, not_true, false_or]
  by_cases hc1 : ¬ req.url.host = "" ∨ ¬ req.url.user = none
  · rw [if_pos hc1]
    simp only []
    show resolvePathL (b.joinPath req.url.path).path.data [] = _
    rw [href]
    exact resolvePath_base_clean _ hW
  · rw [if_neg hc1]
    show resolvePathL b.path.data (b.joinPath req.url.path).path.data = _
    rw [href, hb]
    exact resolvePath_ref_clean _ _ hW

/-! ## Pipeline lemmas -/

theorem buildChain_map_some {σ : Type} (l : List (Interceptor σ)) (t : RoundTripper σ) :
    buildChain (l.map some) t = some (l.foldr (fun ic acc => ic acc) t) := by
  induction l with
  | nil => rfl
  | cons ic rest ih => simp [buildChain, ih]

theorem buildChain_none_of_mem {σ : Type} (l : List (Option (Interceptor σ)))
    (t : RoundTripper σ) (h : none ∈ l) : buildChain l t = none := by
  induction l with
  | nil => simp at h
  | cons oic rest ih =>
    rcases List.mem_cons.mp h with he | hm
    · rw [buildChain]
      cases buildChain rest t with
      | none => rfl
      | some inner => rw [← he]
    · rw [buildChain, ih hm]

theorem markerChain_eval (names : List String) (resp : Option Response)
    (err : Option GoError) (req : Request) : ∀ log : List String,
    (names.map markerInterceptor).foldr (fun ic acc => ic acc) (markerTerminal resp err) req log
      = Outcome.ok resp err (log ++ names.map (fun n => n ++ "-pre") ++ ["terminal"]
          ++ names.reverse.map (fun n => n ++ "-post")) := by
  induction names with
  | nil =>
    intro log
    simp [markerTerminal]
  | cons n rest ih =>
    intro log
    simp only [List.map_cons, List.foldr_cons, markerInterceptor, ih (log ++ [n ++ "-pre"])]
    simp [List.append_assoc]

theorem builtin_delegates {σ : Type} (b : Builtin) (next : RoundTripper σ)
    (req : Request) (s : σ) :
    Builtin.toInterceptor b next req s = next (Builtin.transform b req) s := by
  cases b with
  | baseURL u =>
    by_cases h : req.url.scheme = ""
    · simp [Builtin.toInterceptor, Builtin.transform, BaseURL, baseURLTransform, h]
    · simp [Builtin.toInterceptor, Builtin.transform, BaseURL, baseURLTransform, h]
  | header k v =>
    by_cases h : k = ""
    · simp [Builtin.toInterceptor, Builtin.transform, Header, headerTransform, h]
    · simp [Builtin.toInterceptor, Builtin.transform, Header, headerTransform, h]

theorem builtinChain_eval {σ : Type} (bs : List Builtin) (T : RoundTripper σ) :
    ∀ (req : Request) (s : σ),
    (bs.map Builtin.toInterceptor).foldr (fun ic acc => ic acc) T req s
      = T (bs.foldl (fun r b => Builtin.transform b r) req) s := by
  induction bs with
  | nil => intro req s; rfl
  | cons b rest ih =>
    intro req s
    simp only [List.map_cons, List.foldr_cons, List.foldl_cons]
    rw [builtin_delegates]
    exact ih (Builtin.transform b req) s

/-! ## Header map lemmas -/

theorem find_map_headerSet (ck : String) (v : String) :
    ∀ h : List (String × List String), h.any (fun e => e.1 = ck) = true →
    (h.map (fun e => if e.1 = ck then (ck, [v]) else e)).find?
        (fun e => e.1 = ck) = some (ck, [v]) := by
  intro h
  induction h with
  | nil => intro hany; simp at hany
  | cons e rest ih =>
    intro hany
    by_cases he : e.1 = ck
    · simp [List.find?_cons, he]
    · have hrest : rest.any (fun e => e.1 = ck) = true := by
        simp only [List.any_cons, Bool.or_eq_true] at hany
        rcases hany with h1 | h1
        · exact absurd (by simpa using h1) he
        · exact h1
      have hd : decide (e.1 = ck) = false := by simpa using he
      simp only [List.map_cons, if_neg he, List.find?_cons, hd]
      exact ih hrest

theorem find_append_headerSet (ck : String) (v : String) :
    ∀ h : List (String × List String), h.any (fun e => e.1 = ck) = false →
    (h ++ [(ck, [v])]).find? (fun e => e.1 = ck) = some (ck, [v]) := by
  intro h
  induction h with
  | nil => simp
  | cons e rest ih =>
    intro hany
    simp only [List.any_cons, Bool.or_eq_false_iff] at hany
    have he : ¬ e.1 = ck := by simpa using hany.1
    have hd : decide (e.1 = ck) = false := by simpa using he
    simp only [List.cons_append, List.find?_cons, hd]
    exact ih hany.2

theorem headerGet_headerSet (h : List (String × List String)) (k v k2 : String)
    (hk : canonicalKey k2 = canonicalKey k) :
    headerGet (headerSet h k v) k2 = v := by
  unfold headerGet headerSet
  rw [hk]
  by_cases hany : h.any (fun e => e.1 = canonicalKey k) = true
  · rw [if_pos hany, find_map_headerSet (canonicalKey k) v h hany]
  · have hfalse : h.any (fun e => e.1 = canonicalKey k) = false := by
      cases hx : h.any (fun e => e.1 = canonicalKey k) with
      | true => exact absurd hx hany
      | false => rfl
    rw [if_neg hany, find_append_headerSet (canonicalKey k) v h hfalse]

/-! ## Claim theorems -/

/-- C1: `Pipeline.RoundTrip` folds the interceptor sequence over the
terminal transport in reverse registration order, so interceptors run in
registration order on the request leg and in reverse on the response leg:
marker-recording interceptors around a logging terminal produce the log
`name₁-pre, …, nameN-pre, terminal, nameN-post, …, name₁-post`. -/
theorem roundTrip_onion_order (names : List String) (resp : Option Response)
    (err : Option GoError) (d : RoundTripper (List String)) (req : Request)
    (log : List String) :
    (Pipeline.mk (names.map (fun n => some (markerInterceptor n)))
        (some (markerTerminal resp err))).roundTrip d req log
      = Outcome.ok resp err (log ++ names.map (fun n => n ++ "-pre") ++ ["terminal"]
          ++ names.reverse.map (fun n => n ++ "-post")) := by
  unfold Pipeline.roundTrip
  have hm : names.map (fun n => some (markerInterceptor n))
      = (names.map markerInterceptor).map some := by
    rw [List.map_map]; rfl
  simp only [hm, buildChain_map_some]
  exact markerChain_eval names resp err req log

/-- C5 (amended): a nil interceptor in the sequence is accepted by `Use`
without validation, but `RoundTrip` then panics while building the chain
(a nil-function call); the request is not passed through. -/
theorem roundTrip_nil_interceptor_panics {σ : Type} (p : Pipeline σ)
    (d : RoundTripper σ) (req : Request) (s : σ) (h : none ∈ p.interceptors) :
    p.roundTrip d req s = Outcome.panic := by
  unfold Pipeline.roundTrip
  simp only [show ∀ t : RoundTripper σ, buildChain p.interceptors t = none from
    fun t => buildChain_none_of_mem p.interceptors t h]

/-- Witness for C5's amended theorem: a concrete pipeline with a nil
interceptor entry panics. -/
theorem roundTrip_nil_interceptor_panics_witness :
    (Pipeline.mk [none] (some okTransport)).roundTrip okTransport emptyReq ()
      = Outcome.panic :=
  roundTrip_nil_interceptor_panics (Pipeline.mk [none] (some okTransport))
    okTransport emptyReq () (by simp)

/-- Counterexample to C5 as stated: with a nil interceptor registered,
`RoundTrip` does not return what the terminal transport would return for
the request (it panics instead of passing the request through). -/
theorem nil_interceptor_not_passthrough :
    (Pipeline.mk [none] (some okTransport)).roundTrip okTransport emptyReq ()
        = Outcome.panic
    ∧ ¬ (Pipeline.mk [none] (some okTransport)).roundTrip okTransport emptyReq ()
        = okTransport emptyReq () := by
  refine ⟨rfl, ?_⟩
  decide

/-- C7: a pipeline built solely from the package's interceptors (`BaseURL`
and `Header`) returns to the caller exactly the result the terminal
transport produced — same response, same error, same final state — with
the request transformed purely; nothing is wrapped, replaced, swallowed or
retried. -/
theorem builtins_preserve_results {σ : Type} (bs : List Builtin) (T d : RoundTripper σ)
    (req : Request) (s : σ) :
    (Pipeline.mk (bs.map (fun b => some (Builtin.toInterceptor b)))
        (some T)).roundTrip d req s
      = T (bs.foldl (fun r b => Builtin.transform b r) req) s := by
  unfold Pipeline.roundTrip
  have hm : bs.map (fun b => some (Builtin.toInterceptor (σ := σ) b))
      = (bs.map Builtin.toInterceptor).map some := by
    rw [List.map_map]; rfl
  simp only [hm, buildChain_map_some]
  exact builtinChain_eval bs T req s

/-- C8: `Use` appends to the end of the sequence, and two successive `Use`
batches leave the pipeline in the same state as one call with the
concatenated batch. -/
theorem use_batches_concat {σ : Type} (p : Pipeline σ)
    (a b : List (Option (Interceptor σ))) :
    (p.use a).use b = p.use (a ++ b)
    ∧ (p.use a).interceptors = p.interceptors ++ a := by
  cases p
  simp [Pipeline.use, List.append_assoc]

/-- C9: nesting one pipeline as the terminal transport of another is
observably the same as a single pipeline with the two interceptor lists
concatenated in outer-then-inner order over the inner terminal. -/
theorem pipeline_nesting_flattens {σ : Type} (outerL innerL : List (Interceptor σ))
    (T d d2 : RoundTripper σ) (req : Request) (s : σ) :
    (Pipeline.mk (outerL.map some)
        (some ((Pipeline.mk (innerL.map some) (some T)).asTransport d2))).roundTrip d req s
      = (Pipeline.mk ((outerL ++ innerL).map some) (some T)).roundTrip d req s := by
  have hInner : (Pipeline.mk (innerL.map some) (some T)).asTransport d2
      = innerL.foldr (fun ic acc => ic acc) T := by
    funext r s2
    unfold Pipeline.asTransport Pipeline.roundTrip
    simp [buildChain_map_some]
  unfold Pipeline.roundTrip
  simp only [hInner, buildChain_map_some, List.foldr_append]

/-- C3: a request whose URL carries a non-empty scheme is passed to the
next transport completely unchanged (the very same request record), and
scheme presence is the sole discriminator: with an empty scheme the request
URL is rewritten (joined path, then resolved against the base), whatever
its path looks like. -/
theorem baseURL_scheme_bypass {σ : Type} (b : URL) (next : RoundTripper σ)
    (req : Request) (s : σ) :
    (¬ req.url.scheme = "" → BaseURL b next req s = next req s) ∧
    (req.url.scheme = "" → BaseURL b next req s
        = next ({ req with url := b.resolveReference ({ req.url with path := (b.joinPath req.url.path).path }) }) s) := by
  constructor
  · intro h
    unfold BaseURL
    rw [if_pos h]
  · intro h
    unfold BaseURL
    rw [if_neg (by simp [h])]

/-- Witness for C3: `https://google.com` is bypassed unchanged, while the
scheme-less absolute path `/oauth2` is rewritten to a different URL. -/
theorem baseURL_scheme_bypass_witness :
    BaseURL amBase captureRT googleReq emptyReq = Outcome.ok none none googleReq ∧
    BaseURL amBase captureRT (mkPathReq "/oauth2") emptyReq
      = Outcome.ok none none (baseURLTransform amBase (mkPathReq "/oauth2")) ∧
    ¬ (baseURLTransform amBase (mkPathReq "/oauth2")).url = (mkPathReq "/oauth2").url := by
  have h1 := (baseURL_scheme_bypass amBase captureRT googleReq emptyReq).1 (by decide)
  have h2 := (baseURL_scheme_bypass amBase captureRT (mkPathReq "/oauth2") emptyReq).2 rfl
  exact ⟨h1.trans rfl, h2.trans (by decide), by decide⟩

/-- C6: `Header(key, value)` sets the (canonicalized, hence
case-insensitive) header and delegates; an empty key is a no-op
passthrough of the untouched request; after a set, reading the header
under any equal-canonicalization key yields exactly the new value. -/
theorem header_contract {σ : Type} (key value : String) (next : RoundTripper σ)
    (req : Request) (s : σ) :
    Header key value next req s
      = next (if key = "" then req
          else { req with header := headerSet req.header key value }) s ∧
    (¬ key = "" → ∀ k2 : String, canonicalKey k2 = canonicalKey key →
      headerGet (headerSet req.header key value) k2 = value) := by
  constructor
  · by_cases h : key = ""
    · unfold Header
      rw [if_neg (by simp [h]), if_pos h]
    · unfold Header
      rw [if_pos h, if_neg h]
  · intro _ k2 hk
    exact headerGet_headerSet req.header key value k2 hk

/-- Witness for C6: `Header "X" "v"` overwrites an existing value (read
back case-insensitively via key `x`), and `Header "" "v"` passes the
request through with its headers untouched. -/
theorem header_contract_witness :
    Header "X" "v" captureRT ({ header := [("X", ["old"])] } : Request) emptyReq
      = Outcome.ok none none ({ header := [("X", ["v"])] } : Request) ∧
    headerGet (headerSet [("X", ["old"])] "X" "v") "x" = "v" ∧
    Header "" "v" captureRT ({ header := [("X", ["old"])] } : Request) emptyReq
      = Outcome.ok none none ({ header := [("X", ["old"])] } : Request) := by
  have h1 := (header_contract "X" "v" captureRT
    ({ header := [("X", ["old"])] } : Request) emptyReq).1
  have h2 := (header_contract "X" "v" captureRT
    ({ header := [("X", ["old"])] } : Request) emptyReq).2 (by decide) "x" (by decide)
  have h3 := (header_contract "" "v" captureRT
    ({ header := [("X", ["old"])] } : Request) emptyReq).1
  exact ⟨h1.trans (by decide), h2, h3.trans (by decide)⟩

/-- C2 (amended): for a base URL whose path is absolute (leading slash)
and a request URL with empty scheme (and no opaque part, as for any parsed
scheme-less URL), `BaseURL` delegates with the request path replaced by
the one-pass stack normalization of base segments followed by request
segments — `.` and empty segments dropped, each `..` popping one prior
segment, excess `..` clamped at the root — rooted with a leading slash,
and with a trailing slash of the request path preserved.  (For a base
path without a leading slash the code instead duplicates the base's
directory prefix, see the counterexample.) -/
theorem baseURL_joins_and_normalizes {σ : Type} (b : URL) (next : RoundTripper σ)
    (req : Request) (s : σ) (bp : List Char) (hb : b.path.data = '/' :: bp)
    (hs : req.url.scheme = "") (ho : req.url.opq = "") :
    BaseURL b next req s = next (baseURLTransform b req) s ∧
    (baseURLTransform b req).url.path.data
      = '/' :: joinSegs (withTrailingSlash req.url.path.data
          (specJoinSegs b.path req.url.path)) := by
  constructor
  · unfold BaseURL baseURLTransform
    rw [if_neg (by simp [hs]), if_neg (by simp [hs])]
  · exact baseURLTransform_path b req bp hb hs ho

/-- Witness for C2's amended theorem: the three examples with base
`http://base.example.com/am` — `/oauth2` joins under the base, one `..`
pops `am`, and four `..` clamp at the root. -/
theorem baseURL_joins_and_normalizes_witness :
    (baseURLTransform amBase (mkPathReq "/oauth2")).url.path = "/am/oauth2" ∧
    (baseURLTransform amBase (mkPathReq "../openidm")).url.path = "/openidm" ∧
    (baseURLTransform amBase (mkPathReq "../../../../openidm")).url.path = "/openidm" := by
  have h1 := (baseURL_joins_and_normalizes (σ := Unit) amBase
    (fun _ s => Outcome.ok none none s) (mkPathReq "/oauth2") ()
    "am".data (by decide) rfl rfl).2
  have h2 := (baseURL_joins_and_normalizes (σ := Unit) amBase
    (fun _ s => Outcome.ok none none s) (mkPathReq "../openidm") ()
    "am".data (by decide) rfl rfl).2
  have h3 := (baseURL_joins_and_normalizes (σ := Unit) amBase
    (fun _ s => Outcome.ok none none s) (mkPathReq "../../../../openidm") ()
    "am".data (by decide) rfl rfl).2
  exact ⟨congrArg String.mk (h1.trans (by decide)),
    congrArg String.mk (h2.trans (by decide)),
    congrArg String.mk (h3.trans (by decide))⟩

/-- Counterexample to C2 as stated: with the relative base path `a/b`, the
request path `x` is rewritten to `/a/a/b/x` (the base's directory prefix
is merged in again by RFC 3986 reference resolution), not to the
join-and-normalize result `/a/b/x`. -/
theorem baseURL_relative_base_counterexample :
    relBase.path = "a/b" ∧ (mkPathReq "x").url.scheme = "" ∧
    (baseURLTransform relBase (mkPathReq "x")).url.path = "/a/a/b/x" ∧
    specJoinPath relBase.path (mkPathReq "x").url.path = "/a/b/x" ∧
    ¬ (baseURLTransform relBase (mkPathReq "x")).url.path
        = specJoinPath relBase.path (mkPathReq "x").url.path := by
  refine ⟨rfl, rfl, ?_, ?_, ?_⟩ <;> decide

/-- C4 (amended): for a non-bypassed request whose URL also has an empty
host, no user info and no opaque part, and for which RFC 3986
same-document inheritance is not triggered (the joined path is non-empty,
or the request has a query or the force-query flag), the produced URL
takes exactly the base's scheme and host and keeps exactly the request's
own query and fragment.  (A scheme-less request with a non-empty host —
a protocol-relative URL — keeps its own host; and when the joined path,
request query and fragment are all empty the base's query and fragment
are inherited: see the counterexamples for C4 and C10.) -/
theorem baseURL_frame_fields (b : URL) (req : Request)
    (hs : req.url.scheme = "") (hh : req.url.host = "") (hu : req.url.user = none)
    (ho : req.url.opq = "")
    (hq : ¬ ((b.joinPath req.url.path).path = "" ∧ req.url.forceQuery = false
        ∧ req.url.rawQuery = "")) :
    (baseURLTransform b req).url.scheme = b.scheme ∧
    (baseURLTransform b req).url.host = b.host ∧
    (baseURLTransform b req).url.rawQuery = req.url.rawQuery ∧
    (baseURLTransform b req).url.fragment = req.url.fragment := by
  unfold baseURLTransform
  rw [if_neg (by simp [hs])]
  unfold URL.resolveReference
  simp only [hs, hh, hu, ho]
  rw [if_neg (by simp), if_neg (by simp), if_neg (by simpa using hq)]
  simp

/-- Witness for C4's amended theorem: the request
`/oauth2/json?param1=value1&param2=value2#fragment` against base
`http://base.example.com/am` keeps its query and fragment and takes the
base's scheme and host. -/
theorem baseURL_frame_fields_witness :
    (baseURLTransform amBase oauthJsonReq).url.scheme = "http" ∧
    (baseURLTransform amBase oauthJsonReq).url.host = "base.example.com" ∧
    (baseURLTransform amBase oauthJsonReq).url.path = "/am/oauth2/json" ∧
    (baseURLTransform amBase oauthJsonReq).url.rawQuery = "param1=value1&param2=value2" ∧
    (baseURLTransform amBase oauthJsonReq).url.fragment = "fragment" := by
  have h := baseURL_frame_fields amBase oauthJsonReq rfl rfl rfl rfl (by decide)
  exact ⟨h.1, h.2.1, by decide, h.2.2.1.trans rfl, h.2.2.2.trans rfl⟩

/-- Counterexample to C4 as stated: the protocol-relative request
`//other.example.com/x` has an empty scheme (so it is not bypassed), yet
the produced URL keeps the request's host, not the base's. -/
theorem baseURL_host_counterexample :
    protoRelReq.url.scheme = "" ∧
    (baseURLTransform amBase protoRelReq).url.host = "other.example.com" ∧
    ¬ (baseURLTransform amBase protoRelReq).url.host = amBase.host := by
  refine ⟨rfl, ?_, ?_⟩ <;> decide

/-- C10 (amended): for a non-bypassed request, as long as RFC 3986
same-document inheritance is not triggered (the joined path is non-empty,
or the request carries a query or the force-query flag), the base URL's
own query and fragment are never copied: the final query and fragment are
exactly the request's own, whatever query or fragment the base carries. -/
theorem baseURL_keeps_request_query_fragment (b : URL) (req : Request)
    (hs : req.url.scheme = "")
    (hq : ¬ ((b.joinPath req.url.path).path = "" ∧ req.url.forceQuery = false
        ∧ req.url.rawQuery = "")) :
    (baseURLTransform b req).url.rawQuery = req.url.rawQuery ∧
    (baseURLTransform b req).url.fragment = req.url.fragment := by
  unfold baseURLTransform
  rw [if_neg (by simp [hs])]
  unfold URL.resolveReference
  simp only [hs]
  by_cases h1 : ¬ req.url.host = "" ∨ ¬ req.url.user = none
  · rw [if_pos (by simpa using h1)]
    simp
  · rw [if_neg (by simpa using h1)]
    by_cases h2 : ¬ req.url.opq = ""
    · rw [if_pos h2]
      simp
    · rw [if_neg h2, if_neg (by simpa using hq)]
      simp

/-- Witness for C10's amended theorem: against a base that itself carries
`?x=1#bf`, the request `/oauth2/json?param1=value1&param2=value2#fragment`
keeps its own query and fragment. -/
theorem baseURL_keeps_request_query_fragment_witness :
    (baseURLTransform queryBase oauthJsonReq).url.rawQuery
        = "param1=value1&param2=value2" ∧
    (baseURLTransform queryBase oauthJsonReq).url.fragment = "fragment" := by
  have h := baseURL_keeps_request_query_fragment queryBase oauthJsonReq rfl (by decide)
  exact ⟨h.1.trans rfl, h.2.trans rfl⟩

/-- Counterexample to C10 as stated: a wholly-empty request against the
base `http://h?x=1#bf` (empty base path) triggers RFC 3986 same-document
inheritance, copying the base's query and fragment onto the final URL. -/
theorem baseURL_query_inherit_counterexample :
    emptyReq.url.scheme = "" ∧ emptyReq.url.rawQuery = "" ∧
    emptyReq.url.fragment = "" ∧
    (baseURLTransform queryBase emptyReq).url.rawQuery = "x=1" ∧
    (baseURLTransform queryBase emptyReq).url.fragment = "bf" := by
  refine ⟨rfl, rfl, rfl, ?_, ?_⟩ <;> decide
